import Mathlib

/-!
Verification of the log-analyzer program (src/main.rs) against its
specification.

The program reads a newline-delimited file, parses every line as a JSON
object with a string-valued "type" field (struct JsonObject, derived
serde Deserialize), accumulates per-type statistics (struct TypeData:
number of entries and total byte size of their lines, terminator
excluded) in a HashMap, and prints the table sorted by type label.

Shallow embedding conventions:
  * the input file is a list of its lines, terminator already stripped
    (BufRead::lines semantics); a line's byte size is its UTF-8 length;
  * u64 values are Nat; u64::checked_add is an Option-valued guarded
    addition against 2^64; the unchecked `num += 1` is a wrapping
    increment modulo 2^64 (release-profile Rust semantics);
  * the HashMap is an association list with unique keys; formatting of
    the report is abstracted to the sorted list of entries, since only
    the values and the order are load-bearing;
  * serde_json's grammar (RFC 8259 as serde_json accepts it) is embedded
    as an executable recursive descent over the line's characters, with a
    fuel parameter purely for termination.  Numeric values are validated
    but not retained (no claim inspects them).  \u escapes follow
    serde_json's String decoding: lone surrogates are parse errors and a
    leading surrogate must pair with an immediately following trailing
    one; container nesting deeper than serde_json's default recursion
    limit of 128 is a parse error.  Deserializing the JsonObject struct
    fails when the document is not an object, when the "type" field is
    missing or not a string, and (as serde's derived visitors do) when
    the "type" field is duplicated; unknown fields are ignored.
-/

/-! ## JSON documents and their grammar -/

/-- JSON values, as serde_json classifies them.  The numeric payload is
not retained: the analyzer only ever inspects the "type" field, which it
requires to be a string. -/
inductive Json where
  | null : Json
  | bool (b : Bool) : Json
  | num : Json
  | str (s : String) : Json
  | arr (elems : List Json) : Json
  | obj (fields : List (String × Json)) : Json

/-- Whitespace characters of the JSON grammar. -/
def isWsChar (c : Char) : Bool :=
  c = ' ' || c = '\t' || c = '\n' || c = '\r'

/-- Drop leading JSON whitespace. -/
def skipWs (cs : List Char) : List Char :=
  cs.dropWhile isWsChar

/-- Single-character escape sequences of JSON strings. -/
def escChar (c : Char) : Option Char :=
  if c = '"' then some ('"')
  else if c = '\\' then some ('\\')
  else if c = '/' then some ('/')
  else if c = 'b' then some (Char.ofNat 8)
  else if c = 'f' then some (Char.ofNat 12)
  else if c = 'n' then some ('\n')
  else if c = 'r' then some ('\r')
  else if c = 't' then some ('\t')
  else none

/-- Value of one hexadecimal digit. -/
def hexVal (c : Char) : Option Nat :=
  if '0' ≤ c ∧ c ≤ '9' then some (c.toNat - 48)
  else if 'a' ≤ c ∧ c ≤ 'f' then some (c.toNat - 87)
  else if 'A' ≤ c ∧ c ≤ 'F' then some (c.toNat - 55)
  else none

/-- Value of a four-digit hexadecimal escape. -/
def hex4 (h1 h2 h3 h4 : Char) : Option Nat :=
  match hexVal h1, hexVal h2, hexVal h3, hexVal h4 with
  | some a, some b, some c, some d => some (((a * 16 + b) * 16 + c) * 16 + d)
  | _, _, _, _ => none

/-- Parse the body of a JSON string after its opening quote: the decoded
characters and the input after the closing quote.  Unescaped control
characters are rejected, as serde_json rejects them.  A \uXXXX escape
follows serde_json's surrogate handling when decoding into a String: a
code unit outside the surrogate range decodes to its code point, a lone
trailing surrogate is an error, and a leading surrogate must be
immediately followed by a \uYYYY trailing surrogate, the pair decoding
to its combined supplementary code point. -/
def parseStringBody : List Char → Option (List Char × List Char)
  | [] => none
  | '"' :: rest => some ([], rest)
  | '\\' :: 'u' :: h1 :: h2 :: h3 :: h4 :: rest =>
    (match hex4 h1 h2 h3 h4 with
     | none => none
     | some n =>
       if n < 0xD800 ∨ 0xDFFF < n then
         match parseStringBody rest with
         | some (s, r) => some (Char.ofNat n :: s, r)
         | none => none
       else if 0xDC00 ≤ n then none
       else
         match rest with
         | '\\' :: 'u' :: g1 :: g2 :: g3 :: g4 :: rest2 =>
           (match hex4 g1 g2 g3 g4 with
            | none => none
            | some m =>
              if 0xDC00 ≤ m ∧ m ≤ 0xDFFF then
                match parseStringBody rest2 with
                | some (s, r) =>
                  some (Char.ofNat (0x10000 + (n - 0xD800) * 0x400 + (m - 0xDC00)) :: s, r)
                | none => none
              else none)
         | _ => none)
  | '\\' :: e :: rest =>
    match escChar e with
    | some c =>
      match parseStringBody rest with
      | some (s, r) => some (c :: s, r)
      | none => none
    | none => none
  | c :: rest =>
    if 32 ≤ c.toNat then
      match parseStringBody rest with
      | some (s, r) => some (c :: s, r)
      | none => none
    else none

/-- Parse the integer part of a JSON number (after the optional minus
sign): a lone 0, or a nonzero digit followed by digits. -/
def parseIntPart : List Char → Option (List Char)
  | '0' :: rest => some rest
  | c :: rest => if c.isDigit then some (rest.dropWhile Char.isDigit) else none
  | [] => none

/-- Parse a JSON exponent after the e/E marker: an optional sign and at
least one digit. -/
def parseExpTail (cs : List Char) : Option (List Char) :=
  let cs2 := match cs with
             | '+' :: rest => rest
             | '-' :: rest => rest
             | _ => cs
  if (cs2.takeWhile Char.isDigit).isEmpty then none
  else some (cs2.dropWhile Char.isDigit)

/-- Parse the optional fraction and exponent of a JSON number. -/
def parseFracExp (cs : List Char) : Option (List Char) :=
  let afterFrac : Option (List Char) :=
    match cs with
    | '.' :: rest =>
      if (rest.takeWhile Char.isDigit).isEmpty then none
      else some (rest.dropWhile Char.isDigit)
    | _ => some cs
  match afterFrac with
  | none => none
  | some cs2 =>
    match cs2 with
    | 'e' :: rest => parseExpTail rest
    | 'E' :: rest => parseExpTail rest
    | _ => some cs2

/-- Parse a JSON number: optional minus, integer part, optional fraction
and exponent. -/
def parseNumber (cs : List Char) : Option (Json × List Char) :=
  let cs1 := match cs with
             | '-' :: rest => rest
             | _ => cs
  match parseIntPart cs1 with
  | none => none
  | some rest1 =>
    match parseFracExp rest1 with
    | none => none
    | some rest2 => some (Json.num, rest2)

/-- serde_json's default recursion limit: a Deserializer starts with
remaining_depth 128, decrements it on entering every array or object and
fails when it reaches zero, so 127 levels of container nesting parse and
a 128th nested container is a parse error. -/
def RECURSION_LIMIT : Nat := 128

mutual

/-- Parse one JSON value.  The input must not start with whitespace.
The fuel only bounds the recursion for termination and is chosen large
enough at the top entry point that it never runs out; depth is
serde_json's remaining_depth, decremented on entering each array or
object and exhausted (a parse error) when the decrement would reach
zero. -/
def parseValue : Nat → Nat → List Char → Option (Json × List Char)
  | 0, _, _ => none
  | _ + 1, _, 'n' :: 'u' :: 'l' :: 'l' :: rest => some (Json.null, rest)
  | _ + 1, _, 't' :: 'r' :: 'u' :: 'e' :: rest => some (Json.bool true, rest)
  | _ + 1, _, 'f' :: 'a' :: 'l' :: 's' :: 'e' :: rest => some (Json.bool false, rest)
  | _ + 1, _, '"' :: rest =>
    match parseStringBody rest with
    | some (content, rest2) => some (Json.str (String.mk content), rest2)
    | none => none
  | fuel + 1, depth, '[' :: rest =>
    if depth ≤ 1 then none
    else
      (match skipWs rest with
       | ']' :: rest2 => some (Json.arr [], rest2)
       | cs2 =>
         match parseElems fuel (depth - 1) cs2 with
         | some (es, rest2) => some (Json.arr es, rest2)
         | none => none)
  | fuel + 1, depth, '\x7b' :: rest =>
    if depth ≤ 1 then none
    else
      (match skipWs rest with
       | '\x7d' :: rest2 => some (Json.obj [], rest2)
       | cs2 =>
         match parseMembers fuel (depth - 1) cs2 with
         | some (ms, rest2) => some (Json.obj ms, rest2)
         | none => none)
  | _ + 1, _, cs => parseNumber cs

/-- Parse the elements of a nonempty JSON array, up to and including the
closing bracket, at the array's (already decremented) depth. -/
def parseElems : Nat → Nat → List Char → Option (List Json × List Char)
  | 0, _, _ => none
  | fuel + 1, depth, cs =>
    match parseValue fuel depth cs with
    | none => none
    | some (j, rest) =>
      match skipWs rest with
      | ',' :: rest2 =>
        (match parseElems fuel depth (skipWs rest2) with
         | some (es, rest3) => some (j :: es, rest3)
         | none => none)
      | ']' :: rest2 => some ([j], rest2)
      | _ => none

/-- Parse the members of a nonempty JSON object, up to and including the
closing brace, at the object's (already decremented) depth. -/
def parseMembers : Nat → Nat → List Char → Option (List (String × Json) × List Char)
  | 0, _, _ => none
  | fuel + 1, depth, cs =>
    match cs with
    | '"' :: rest =>
      (match parseStringBody rest with
       | none => none
       | some (key, rest2) =>
         match skipWs rest2 with
         | ':' :: rest3 =>
           (match parseValue fuel depth (skipWs rest3) with
            | none => none
            | some (v, rest4) =>
              match skipWs rest4 with
              | ',' :: rest5 =>
                (match parseMembers fuel depth (skipWs rest5) with
                 | some (ms, rest6) => some ((String.mk key, v) :: ms, rest6)
                 | none => none)
              | '\x7d' :: rest5 => some ([(String.mk key, v)], rest5)
              | _ => none)
         | _ => none)
    | _ => none

end

/-- Parse a whole string as one JSON document: leading and trailing
whitespace allowed, nothing else may follow the value, container nesting
limited to serde_json's recursion limit.  This is the embedding of
serde_json's from_str syntax acceptance. -/
def Json.parse (s : String) : Option Json :=
  let cs := skipWs s.data
  match parseValue (2 * cs.length + 2) RECURSION_LIMIT cs with
  | some (j, rest) => if skipWs rest = [] then some j else none
  | none => none

/-! ## The record decoder (struct JsonObject) -/

/-- Occurrences of the "type" field among an object's members. -/
def typeFields (fields : List (String × Json)) : List (String × Json) :=
  fields.filter (fun kv => kv.1 == "type")

/-- Deserialize struct JsonObject from one line, yielding its `ty` field:
the document must parse, be an object, and carry exactly one "type"
member whose value is a string (serde's derived visitor rejects a missing,
duplicated or non-string "type" and ignores every other field). -/
def decodeLine (s : String) : Option String :=
  match Json.parse s with
  | some (Json.obj fields) =>
    (match typeFields fields with
     | [(_, Json.str ty)] => some ty
     | _ => none)
  | _ => none

/-! ## The statistics table -/

/-- Per-type statistics, struct TypeData of the source: the number of
entries with this type and the number of bytes used by all entries with
this type.  Both are u64 in the source, represented as Nat. -/
structure TypeData where
  num : Nat
  bytes : Nat
deriving DecidableEq

/-- One more than u64::MAX: the first unrepresentable u64 value. -/
def U64LIMIT : Nat := 2 ^ 64

/-- Embedding of u64::checked_add on in-range values. -/
def checked_add (a b : Nat) : Option Nat :=
  if a + b < U64LIMIT then some (a + b) else none

/-- The HashMap String TypeData, as an association list.  Ordering of the
entries is irrelevant to the program (the report sorts them); all maps
built by the program have distinct keys. -/
abbrev StatsTable := List (String × TypeData)

/-- Look a type label up in the table. -/
def findEntry : StatsTable → String → Option TypeData
  | [], _ => none
  | (k, d) :: rest, ty => if k = ty then some d else findEntry rest ty

/-- Value of HashMap::entry(ty).or_default(): the stored entry, or a
fresh default TypeData when the label is absent. -/
def getEntry (stats : StatsTable) (ty : String) : TypeData :=
  (findEntry stats ty).getD ⟨0, 0⟩

/-- Store an entry under a label: replace the stored entry, or append a
binding when the label is absent. -/
def setEntry : StatsTable → String → TypeData → StatsTable
  | [], ty, d => [(ty, d)]
  | (k, e) :: rest, ty, d =>
    if k = ty then (k, d) :: rest else (k, e) :: setEntry rest ty d

/-- Byte length of a line's UTF-8 encoding: Rust's str::len on the
terminator-stripped line. -/
def utf8Len (s : String) : Nat :=
  (s.data.map Char.utf8Size).sum

/-! ## Errors -/

/-- Errors arising while processing one line.  anyhow's context strings
are abstracted to the structured payload they carry: the parse error
holds the offending raw line text, the overflow error reports that the
total byte count would exceed 2^64 - 1. -/
inductive LineError where
  | parseError (raw : String) : LineError
  | overflow : LineError
deriving DecidableEq

/-- Error surfaced by process_file: the failing line's 1-based number
wrapping the underlying line error. -/
structure FileError where
  lineNo : Nat
  err : LineError
deriving DecidableEq

/-! ## The aggregation steps -/

/-- Accumulation step of process_line lines 90-100 of the source:
entry(ty).or_default(), then `num += 1` (the unchecked u64 increment,
which wraps modulo 2^64), then `bytes = bytes.checked_add(len)?`.  On
overflow the error is returned after the entry was already inserted and
its num incremented, so the mutated table is returned alongside the
error. -/
def record (stats : StatsTable) (ty : String) (len : Nat) : StatsTable × Option LineError :=
  match checked_add (getEntry stats ty).bytes len with
  | some b =>
    (setEntry stats ty ⟨((getEntry stats ty).num + 1) % U64LIMIT, b⟩, none)
  | none =>
    (setEntry stats ty ⟨((getEntry stats ty).num + 1) % U64LIMIT, (getEntry stats ty).bytes⟩,
     some LineError.overflow)

/-- Embedding of process_line on an already-read line: decode the line as
a JsonObject (failure carries the raw line) and accumulate its type and
byte length.  The returned table reflects any mutation performed before
an error was detected. -/
def process_line (stats : StatsTable) (line : String) : StatsTable × Option LineError :=
  match decodeLine line with
  | none => (stats, some (LineError.parseError line))
  | some ty => record stats ty (utf8Len line)

/-- Loop of process_file: process the lines in order, numbering them from
n, stopping at the first error and wrapping it with that line's number. -/
def process_lines : StatsTable → Nat → List String → Except FileError StatsTable
  | stats, _, [] => Except.ok stats
  | stats, n, l :: rest =>
    match process_line stats l with
    | (stats2, none) => process_lines stats2 (n + 1) rest
    | (_, some e) => Except.error ⟨n, e⟩

/-- Embedding of process_file over the file's lines: start from the empty
map and number lines from 1 (enumerate's n, reported as n + 1).  On error
no table is returned. -/
def process_file (lines : List String) : Except FileError StatsTable :=
  process_lines [] 1 lines

/-! ## The reporter -/

/-- Strict byte/codepoint lexicographic order on character lists: the
order Rust's String::cmp induces on the UTF-8 bytes (UTF-8 preserves
codepoint order). -/
def charsLt : List Char → List Char → Bool
  | _, [] => false
  | [], _ :: _ => true
  | a :: as, b :: bs =>
    if a < b then true
    else if b < a then false
    else charsLt as bs

/-- Strict lexicographic order on labels. -/
def strLt (a b : String) : Bool := charsLt a.data b.data

/-- Lexicographic order on labels, reflexive form. -/
def strLe (a b : String) : Bool := !strLt b a

/-- Insert one table entry into a list sorted by label. -/
def insertByKey (p : String × TypeData) : List (String × TypeData) → List (String × TypeData)
  | [] => [p]
  | q :: rest => if strLe p.1 q.1 then p :: q :: rest else q :: insertByKey p rest

/-- Embedding of main's reporting step: the table's entries sorted
ascending by type label (result.sort_by(|(l, _), (r, _)| l.cmp(r))).
Each entry is then printed on its own line in entry order; the printed
values are exactly the entry's label, num and bytes, so the sorted entry
list is the report's content. -/
def report (t : StatsTable) : List (String × TypeData) :=
  t.foldr insertByKey []

/-! ## Specification-side aggregates -/

/-- Labels of a table. -/
def keysOf (t : StatsTable) : List String := t.map Prod.fst

/-- Sum of the num (count) fields over a table's entries. -/
def sumNum (t : StatsTable) : Nat := (t.map (fun e => e.2.num)).sum

/-- Sum of the bytes (totalBytes) fields over a table's entries. -/
def sumBytes (t : StatsTable) : Nat := (t.map (fun e => e.2.bytes)).sum

/-- Lines of the file that decode to the given type label. -/
def linesOf (lines : List String) (ty : String) : List String :=
  lines.filter (fun l => decodeLine l == some ty)

/-- Number of lines of the file with the given type label. -/
def countOf (lines : List String) (ty : String) : Nat :=
  (linesOf lines ty).length

/-- Total byte length of the lines of the file with the given type
label. -/
def bytesOf (lines : List String) (ty : String) : Nat :=
  ((linesOf lines ty).map utf8Len).sum

/-- Representation invariant of tables the program builds: every entry
counts at most one record per byte (lines are nonempty), and its byte
total is a u64 value. -/
def WFTable (t : StatsTable) : Prop :=
  ∀ e ∈ t, e.2.num ≤ e.2.bytes ∧ e.2.bytes < U64LIMIT

/-- Run outcome is a completed table. -/
def isOkRun (r : Except FileError StatsTable) : Bool :=
  match r with
  | Except.ok _ => true
  | Except.error _ => false

/-- The completed table of a successful run (empty table on error; only
used beneath isOkRun). -/
def okTable (r : Except FileError StatsTable) : StatsTable :=
  match r with
  | Except.ok t => t
  | Except.error _ => []

/-! ## Concrete input lines used by the scenario claims -/

/-- The literal line of Scenario A with type a (12 bytes). -/
def jsonA : String := "\x7b\"type\":\"a\"\x7d"

/-- The literal line of Scenario A with type b (12 bytes). -/
def jsonB : String := "\x7b\"type\":\"b\"\x7d"

/-- A line with type c (12 bytes). -/
def jsonC : String := "\x7b\"type\":\"c\"\x7d"

theorem findEntry_setEntry_self (t : StatsTable) (ty : String) (d : TypeData) :
    findEntry (setEntry t ty d) ty = some d := by
  induction t with
  | nil => simp [setEntry, findEntry]
  | cons e rest ih =>
    obtain ⟨k, v⟩ := e
    by_cases hk : k = ty
    · simp [setEntry, hk, findEntry]
    · simp [setEntry, hk, findEntry, ih]

theorem findEntry_setEntry_ne (t : StatsTable) (ty ty2 : String) (d : TypeData)
    (h : ty2 ≠ ty) : findEntry (setEntry t ty d) ty2 = findEntry t ty2 := by
  induction t with
  | nil =>
    simp only [setEntry, findEntry]
    rw [if_neg (fun hh => h hh.symm)]
  | cons e rest ih =>
    obtain ⟨k, v⟩ := e
    simp only [setEntry]
    by_cases hk : k = ty
    · rw [if_pos hk]
      have hk2 : ¬k = ty2 := by
        rw [hk]
        exact fun hh => h hh.symm
      simp only [findEntry]
      rw [if_neg hk2, if_neg hk2]
    · rw [if_neg hk]
      simp only [findEntry]
      by_cases hk2 : k = ty2
      · rw [if_pos hk2, if_pos hk2]
      · rw [if_neg hk2, if_neg hk2]
        exact ih

theorem sumNum_setEntry (t : StatsTable) (ty : String) (d : TypeData) :
    sumNum (setEntry t ty d) + (getEntry t ty).num = sumNum t + d.num := by
  induction t with
  | nil => simp [setEntry, sumNum, getEntry, findEntry]
  | cons e rest ih =>
    obtain ⟨k, v⟩ := e
    by_cases hk : k = ty
    · simp [setEntry, hk, sumNum, getEntry, findEntry]
      omega
    · simp only [setEntry, hk, if_false, sumNum, List.map_cons, List.sum_cons,
        getEntry, findEntry] at *
      omega

theorem sumBytes_setEntry (t : StatsTable) (ty : String) (d : TypeData) :
    sumBytes (setEntry t ty d) + (getEntry t ty).bytes = sumBytes t + d.bytes := by
  induction t with
  | nil => simp [setEntry, sumBytes, getEntry, findEntry]
  | cons e rest ih =>
    obtain ⟨k, v⟩ := e
    by_cases hk : k = ty
    · simp [setEntry, hk, sumBytes, getEntry, findEntry]
      omega
    · simp only [setEntry, hk, if_false, sumBytes, List.map_cons, List.sum_cons,
        getEntry, findEntry] at *
      omega

theorem mem_setEntry (t : StatsTable) (ty : String) (d : TypeData) (e : String × TypeData)
    (h : e ∈ setEntry t ty d) : e = (ty, d) ∨ e ∈ t := by
  induction t with
  | nil => simpa [setEntry] using h
  | cons q rest ih =>
    obtain ⟨k, v⟩ := q
    by_cases hk : k = ty
    · subst hk
      rcases (by simpa [setEntry] using h : e = (k, d) ∨ e ∈ rest) with h1 | h1
      · exact Or.inl h1
      · exact Or.inr (List.mem_cons_of_mem _ h1)
    · rcases (by simpa [setEntry, hk] using h : e = (k, v) ∨ e ∈ setEntry rest ty d) with h1 | h1
      · exact Or.inr (by simp [h1])
      · rcases ih h1 with h2 | h2
        · exact Or.inl h2
        · exact Or.inr (List.mem_cons_of_mem _ h2)

theorem mem_keysOf_setEntry (t : StatsTable) (ty a : String) (d : TypeData)
    (h : a ∈ keysOf (setEntry t ty d)) : a ∈ keysOf t ∨ a = ty := by
  simp only [keysOf, List.mem_map] at h
  obtain ⟨e, he, hka⟩ := h
  rcases mem_setEntry t ty d e he with h1 | h1
  · right; rw [h1] at hka; exact hka.symm ▸ rfl
  · left; exact List.mem_map.mpr ⟨e, h1, hka⟩

theorem nodup_keysOf_setEntry (t : StatsTable) (ty : String) (d : TypeData)
    (h : (keysOf t).Nodup) : (keysOf (setEntry t ty d)).Nodup := by
  induction t with
  | nil => simp [setEntry, keysOf]
  | cons q rest ih =>
    obtain ⟨k, v⟩ := q
    simp only [keysOf, List.map_cons, List.nodup_cons] at h
    by_cases hk : k = ty
    · simp only [setEntry, if_pos hk, keysOf, List.map_cons, List.nodup_cons]
      exact ⟨h.1, h.2⟩
    · simp only [setEntry, if_neg hk, keysOf, List.map_cons, List.nodup_cons]
      refine ⟨fun hmem => ?_, ih h.2⟩
      rcases mem_keysOf_setEntry rest ty k d hmem with h1 | h1
      · exact h.1 h1
      · exact hk h1

theorem findEntry_some_mem (t : StatsTable) (ty : String) (d : TypeData)
    (h : findEntry t ty = some d) : (ty, d) ∈ t := by
  induction t with
  | nil => simp [findEntry] at h
  | cons q rest ih =>
    obtain ⟨k, v⟩ := q
    by_cases hk : k = ty
    · subst hk
      simp only [findEntry, if_true] at h
      cases h
      simp
    · simp only [findEntry, hk, if_false] at h
      exact List.mem_cons_of_mem _ (ih h)

theorem mem_iff_findEntry (t : StatsTable) (ty : String) (d : TypeData)
    (hnd : (keysOf t).Nodup) : (ty, d) ∈ t ↔ findEntry t ty = some d := by
  constructor
  · intro hm
    induction t with
    | nil => simp at hm
    | cons q rest ih =>
      obtain ⟨k, v⟩ := q
      simp only [keysOf, List.map_cons, List.nodup_cons] at hnd
      rcases List.mem_cons.mp hm with h1 | h1
      · cases h1
        simp [findEntry]
      · have hk : k ≠ ty := by
          intro hk
          subst hk
          exact hnd.1 (List.mem_map.mpr ⟨(k, d), h1, rfl⟩)
        simp only [findEntry, hk, if_false]
        exact ih hnd.2 h1
  · exact findEntry_some_mem t ty d

theorem checked_add_some {a b c : Nat} (h : checked_add a b = some c) :
    c = a + b ∧ a + b < U64LIMIT := by
  unfold checked_add at h
  by_cases hlt : a + b < U64LIMIT
  · simp [hlt] at h
    exact ⟨h.symm, hlt⟩
  · simp [hlt] at h

theorem checked_add_none {a b : Nat} (h : checked_add a b = none) :
    U64LIMIT ≤ a + b := by
  unfold checked_add at h
  by_cases hlt : a + b < U64LIMIT
  · simp [hlt] at h
  · omega

theorem utf8Len_pos_of_decode {s ty : String} (h : decodeLine s = some ty) :
    1 ≤ utf8Len s := by
  cases s with
  | mk data =>
    cases data with
    | nil =>
      have hnone : decodeLine (String.mk []) = none := rfl
      rw [hnone] at h
      exact Option.noConfusion h
    | cons c cs =>
      have hpos := Char.utf8Size_pos c
      simp only [utf8Len, List.map_cons, List.sum_cons]
      omega

/-! ## Step lemmas -/

theorem record_ok {stats : StatsTable} {ty : String} {len : Nat} {t2 : StatsTable}
    (h : record stats ty len = (t2, none)) :
    (getEntry stats ty).bytes + len < U64LIMIT ∧
    t2 = setEntry stats ty
      ⟨((getEntry stats ty).num + 1) % U64LIMIT, (getEntry stats ty).bytes + len⟩ := by
  unfold record at h
  cases hc : checked_add (getEntry stats ty).bytes len with
  | none =>
    rw [hc] at h
    simp at h
  | some b =>
    rw [hc] at h
    obtain ⟨hb, hlt⟩ := checked_add_some hc
    simp only [Prod.mk.injEq] at h
    subst hb
    exact ⟨hlt, h.1.symm⟩

theorem record_overflow {stats : StatsTable} {ty : String} {len : Nat}
    (h : U64LIMIT ≤ (getEntry stats ty).bytes + len) :
    record stats ty len =
      (setEntry stats ty ⟨((getEntry stats ty).num + 1) % U64LIMIT, (getEntry stats ty).bytes⟩,
       some LineError.overflow) := by
  unfold record
  have hc : checked_add (getEntry stats ty).bytes len = none := by
    unfold checked_add
    rw [if_neg (by omega)]
  rw [hc]

theorem getEntry_WF {stats : StatsTable} {ty : String} (hwf : WFTable stats) :
    (getEntry stats ty).num ≤ (getEntry stats ty).bytes ∧ (getEntry stats ty).bytes < U64LIMIT := by
  cases hfe : findEntry stats ty with
  | none =>
    refine ⟨by simp [getEntry, hfe], ?_⟩
    simp only [getEntry, hfe, Option.getD_none]
    norm_num [U64LIMIT]
  | some v =>
    have hmem := findEntry_some_mem stats ty v hfe
    have := hwf _ hmem
    simpa [getEntry, hfe] using this

theorem linesOf_cons_self {l ty : String} (rest : List String)
    (hd : decodeLine l = some ty) : linesOf (l :: rest) ty = l :: linesOf rest ty := by
  simp [linesOf, List.filter_cons, hd]

theorem linesOf_cons_other {l ty : String} (rest : List String)
    (h : ¬ decodeLine l = some ty) : linesOf (l :: rest) ty = linesOf rest ty := by
  simp [linesOf, List.filter_cons, h]

theorem bytesOf_eq_zero {lines : List String} {ty : String}
    (h : countOf lines ty = 0) : bytesOf lines ty = 0 := by
  unfold countOf at h
  rw [List.length_eq_zero] at h
  unfold bytesOf
  rw [h]
  rfl

/-! ## Characterization of a successful run -/

theorem run_ok_char (lines : List String) :
    ∀ (stats : StatsTable) (n : Nat) (t : StatsTable),
    WFTable stats → (keysOf stats).Nodup → process_lines stats n lines = Except.ok t →
    WFTable t ∧ (keysOf t).Nodup ∧
    sumNum t = sumNum stats + lines.length ∧
    sumBytes t = sumBytes stats + (lines.map utf8Len).sum ∧
    (∀ l ∈ lines, (decodeLine l).isSome) ∧
    (∀ ty, findEntry t ty =
      if countOf lines ty = 0 then findEntry stats ty
      else some ⟨(getEntry stats ty).num + countOf lines ty,
                 (getEntry stats ty).bytes + bytesOf lines ty⟩) := by
  induction lines with
  | nil =>
    intro stats n t hwf hnd h
    simp only [process_lines] at h
    cases h
    refine ⟨hwf, hnd, by simp, by simp, by simp, ?_⟩
    intro ty
    simp [countOf, linesOf]
  | cons l rest ih =>
    intro stats n t hwf hnd h
    simp only [process_lines] at h
    cases hpl : process_line stats l with
    | mk stats2 oe =>
      rw [hpl] at h
      cases oe with
      | some e => exact Except.noConfusion h
      | none =>
        cases hd : decodeLine l with
        | none =>
          rw [process_line, hd] at hpl
          simp at hpl
        | some ty0 =>
          rw [process_line, hd] at hpl
          obtain ⟨hlt, hst2⟩ := record_ok hpl
          have hlen : 1 ≤ utf8Len l := utf8Len_pos_of_decode hd
          obtain ⟨hle, hbd⟩ := @getEntry_WF stats ty0 hwf
          have hmod : ((getEntry stats ty0).num + 1) % U64LIMIT = (getEntry stats ty0).num + 1 :=
            Nat.mod_eq_of_lt (by omega)
          rw [hmod] at hst2
          generalize hD : (⟨(getEntry stats ty0).num + 1,
            (getEntry stats ty0).bytes + utf8Len l⟩ : TypeData) = D at hst2
          have hDn : D.num = (getEntry stats ty0).num + 1 := by rw [← hD]
          have hDb : D.bytes = (getEntry stats ty0).bytes + utf8Len l := by rw [← hD]
          subst hst2
          have hwf2 : WFTable (setEntry stats ty0 D) := by
            intro e he
            rcases mem_setEntry _ _ _ _ he with h1 | h1
            · rw [h1]
              dsimp only
              omega
            · exact hwf _ h1
          have hnd2 := nodup_keysOf_setEntry stats ty0 D hnd
          obtain ⟨hwt, hnt, hsn, hsb, hdec, hfind⟩ := ih _ (n + 1) t hwf2 hnd2 h
          have hsn2 := sumNum_setEntry stats ty0 D
          have hsb2 := sumBytes_setEntry stats ty0 D
          refine ⟨hwt, hnt, ?_, ?_, ?_, ?_⟩
          · simp only [List.length_cons]
            omega
          · simp only [List.map_cons, List.sum_cons]
            omega
          · intro l2 hl2
            rcases List.mem_cons.mp hl2 with h1 | h1
            · rw [h1, hd]
              rfl
            · exact hdec l2 h1
          · intro ty
            by_cases hty : ty = ty0
            · subst hty
              have hco : countOf (l :: rest) ty = countOf rest ty + 1 := by
                unfold countOf
                rw [linesOf_cons_self rest hd]
                simp
              have hby : bytesOf (l :: rest) ty = utf8Len l + bytesOf rest ty := by
                unfold bytesOf
                rw [linesOf_cons_self rest hd]
                simp
              have hge2 : getEntry (setEntry stats ty D) ty = D := by
                unfold getEntry
                rw [findEntry_setEntry_self]
                rfl
              rw [hfind ty, hco, hby]
              by_cases hz : countOf rest ty = 0
              · have hbz : bytesOf rest ty = 0 := bytesOf_eq_zero hz
                rw [if_pos hz, if_neg (by omega), hz, hbz, findEntry_setEntry_self]
                rw [Option.some.injEq]
                have : D = ⟨(getEntry stats ty).num + 1, (getEntry stats ty).bytes + utf8Len l⟩ :=
                  hD.symm
                rw [this]
                have e1 : (getEntry stats ty).num + 1 = (getEntry stats ty).num + (0 + 1) := by
                  omega
                have e2 : (getEntry stats ty).bytes + utf8Len l =
                    (getEntry stats ty).bytes + (utf8Len l + 0) := by omega
                rw [← e1, ← e2]
              · rw [if_neg hz, if_neg (by omega), hge2]
                rw [Option.some.injEq]
                have e1 : D.num + countOf rest ty =
                    (getEntry stats ty).num + (countOf rest ty + 1) := by omega
                have e2 : D.bytes + bytesOf rest ty =
                    (getEntry stats ty).bytes + (utf8Len l + bytesOf rest ty) := by omega
                rw [e1, e2]
            · have hne : ¬ decodeLine l = some ty := by
                rw [hd]
                intro hh
                exact hty (Option.some.injEq ty0 ty ▸ hh).symm
              have hco : countOf (l :: rest) ty = countOf rest ty := by
                unfold countOf
                rw [linesOf_cons_other rest hne]
              have hby : bytesOf (l :: rest) ty = bytesOf rest ty := by
                unfold bytesOf
                rw [linesOf_cons_other rest hne]
              have hfe2 : findEntry (setEntry stats ty0 D) ty = findEntry stats ty :=
                findEntry_setEntry_ne _ _ _ _ hty
              have hge2 : getEntry (setEntry stats ty0 D) ty = getEntry stats ty := by
                unfold getEntry
                rw [hfe2]
              rw [hfind ty, hco, hby, hfe2, hge2]

theorem record_ok_of_lt {stats : StatsTable} {ty : String} {len : Nat}
    (h : (getEntry stats ty).bytes + len < U64LIMIT) :
    record stats ty len =
      (setEntry stats ty ⟨((getEntry stats ty).num + 1) % U64LIMIT, (getEntry stats ty).bytes + len⟩,
       none) := by
  unfold record
  have hc : checked_add (getEntry stats ty).bytes len = some ((getEntry stats ty).bytes + len) := by
    unfold checked_add
    rw [if_pos h]
  rw [hc]

theorem run_complete (lines : List String) :
    ∀ (stats : StatsTable) (n : Nat),
    (∀ l ∈ lines, (decodeLine l).isSome) →
    (∀ ty, (getEntry stats ty).bytes + bytesOf lines ty < U64LIMIT) →
    ∃ t, process_lines stats n lines = Except.ok t := by
  induction lines with
  | nil =>
    intro stats n _ _
    exact ⟨stats, rfl⟩
  | cons l rest ih =>
    intro stats n hdec hbnd
    cases hd : decodeLine l with
    | none =>
      have := hdec l (by simp)
      rw [hd] at this
      simp at this
    | some ty0 =>
      have hby0 : bytesOf (l :: rest) ty0 = utf8Len l + bytesOf rest ty0 := by
        unfold bytesOf
        rw [linesOf_cons_self rest hd]
        simp
      have hlt : (getEntry stats ty0).bytes + utf8Len l < U64LIMIT := by
        have := hbnd ty0
        rw [hby0] at this
        omega
      have hstep : process_lines stats n (l :: rest) =
          process_lines (setEntry stats ty0 ⟨((getEntry stats ty0).num + 1) % U64LIMIT,
            (getEntry stats ty0).bytes + utf8Len l⟩) (n + 1) rest := by
        simp only [process_lines, process_line, hd, record_ok_of_lt hlt]
      rw [hstep]
      refine ih _ (n + 1) (fun l2 hl2 => hdec l2 (List.mem_cons_of_mem _ hl2)) ?_
      intro ty
      by_cases hty : ty = ty0
      · subst hty
        have hge2 : getEntry (setEntry stats ty ⟨((getEntry stats ty).num + 1) % U64LIMIT,
            (getEntry stats ty).bytes + utf8Len l⟩) ty =
            ⟨((getEntry stats ty).num + 1) % U64LIMIT, (getEntry stats ty).bytes + utf8Len l⟩ := by
          unfold getEntry
          rw [findEntry_setEntry_self]
          rfl
        rw [hge2]
        have := hbnd ty
        rw [hby0] at this
        dsimp only
        omega
      · have hge2 : getEntry (setEntry stats ty0 ⟨((getEntry stats ty0).num + 1) % U64LIMIT,
            (getEntry stats ty0).bytes + utf8Len l⟩) ty = getEntry stats ty := by
          unfold getEntry
          rw [findEntry_setEntry_ne _ _ _ _ hty]
        rw [hge2]
        have hne : ¬ decodeLine l = some ty := by
          rw [hd]
          intro hh
          exact hty (Option.some.injEq ty0 ty ▸ hh).symm
        have hby : bytesOf (l :: rest) ty = bytesOf rest ty := by
          unfold bytesOf
          rw [linesOf_cons_other rest hne]
        have := hbnd ty
        rw [hby] at this
        exact this

theorem run_first_error (lines : List String) :
    ∀ (stats : StatsTable) (n : Nat),
    (∃ t, process_lines stats n lines = Except.ok t ∧ ∀ l ∈ lines, (decodeLine l).isSome) ∨
    (∃ front l back e s, lines = front ++ l :: back ∧
      process_lines stats n front = Except.ok s ∧
      (process_line s l).2 = some e ∧
      ∀ back2, process_lines stats n (front ++ l :: back2) =
        Except.error ⟨n + front.length, e⟩) := by
  induction lines with
  | nil =>
    intro stats n
    exact Or.inl ⟨stats, rfl, by simp⟩
  | cons l rest ih =>
    intro stats n
    cases hpl : process_line stats l with
    | mk stats2 oe =>
      cases oe with
      | some e =>
        right
        refine ⟨[], l, rest, e, stats, rfl, rfl, by rw [hpl], ?_⟩
        intro back2
        simp only [List.nil_append, process_lines, hpl, List.length_nil, Nat.add_zero]
      | none =>
        have hdl : (decodeLine l).isSome := by
          cases hd : decodeLine l with
          | none =>
            rw [process_line, hd] at hpl
            simp at hpl
          | some ty0 => rfl
        rcases ih stats2 (n + 1) with ⟨t, ht, hdec⟩ | ⟨front, l2, back, e, s, heq, hfront, herr, hall⟩
        · left
          refine ⟨t, ?_, ?_⟩
          · simp only [process_lines]
            rw [hpl]
            exact ht
          · intro l3 hl3
            rcases List.mem_cons.mp hl3 with h1 | h1
            · rw [h1]
              exact hdl
            · exact hdec l3 h1
        · right
          refine ⟨l :: front, l2, back, e, s, by rw [heq, List.cons_append], ?_, herr, ?_⟩
          · simp only [process_lines]
            rw [hpl]
            exact hfront
          · intro back2
            have h2 := hall back2
            have hlen2 : n + 1 + front.length = n + (l :: front).length := by
              simp only [List.length_cons]
              omega
            rw [hlen2] at h2
            simp only [List.cons_append, process_lines, hpl]
            exact h2

/-! ## Lemmas about the reporter's ordering -/

theorem charsLt_cons_iff {x y : Char} {xs ys : List Char} :
    charsLt (x :: xs) (y :: ys) = true ↔ x < y ∨ (x = y ∧ charsLt xs ys = true) := by
  by_cases h1 : x < y
  · simp [charsLt, h1]
  · by_cases h2 : y < x
    · have hne : ¬ x = y := by
        intro he
        rw [he] at h2
        exact lt_irrefl y h2
      simp [charsLt, h1, h2, hne]
    · have he : x = y := le_antisymm (not_lt.mp h2) (not_lt.mp h1)
      simp [charsLt, h1, h2, he]

theorem charsLt_irrefl : ∀ l : List Char, charsLt l l = false := by
  intro l
  induction l with
  | nil => rfl
  | cons x xs ih =>
    rw [charsLt, if_neg (lt_irrefl x), if_neg (lt_irrefl x)]
    exact ih

theorem charsLt_trans : ∀ (a b c : List Char),
    charsLt a b = true → charsLt b c = true → charsLt a c = true := by
  intro a
  induction a with
  | nil =>
    intro b c hab hbc
    cases b with
    | nil => simp [charsLt] at hab
    | cons y ys =>
      cases c with
      | nil => simp [charsLt] at hbc
      | cons z zs => simp [charsLt]
  | cons x xs ihx =>
    intro b c hab hbc
    cases b with
    | nil => simp [charsLt] at hab
    | cons y ys =>
      cases c with
      | nil => simp [charsLt] at hbc
      | cons z zs =>
        rcases charsLt_cons_iff.mp hab with h1 | ⟨he1, h1⟩
        · rcases charsLt_cons_iff.mp hbc with h2 | ⟨he2, h2⟩
          · exact charsLt_cons_iff.mpr (Or.inl (lt_trans h1 h2))
          · exact charsLt_cons_iff.mpr (Or.inl (by rw [← he2]; exact h1))
        · rcases charsLt_cons_iff.mp hbc with h2 | ⟨he2, h2⟩
          · exact charsLt_cons_iff.mpr (Or.inl (by rw [he1]; exact h2))
          · exact charsLt_cons_iff.mpr (Or.inr ⟨he1.trans he2, ihx ys zs h1 h2⟩)

theorem charsLt_connex : ∀ (a b : List Char),
    charsLt a b = false → charsLt b a = false → a = b := by
  intro a
  induction a with
  | nil =>
    intro b h1 h2
    cases b with
    | nil => rfl
    | cons y ys => simp [charsLt] at h1
  | cons x xs ihx =>
    intro b h1 h2
    cases b with
    | nil => simp [charsLt] at h2
    | cons y ys =>
      have h1' : ¬ (x < y ∨ (x = y ∧ charsLt xs ys = true)) := by
        rw [← charsLt_cons_iff]
        rw [h1]
        simp
      have h2' : ¬ (y < x ∨ (y = x ∧ charsLt ys xs = true)) := by
        rw [← charsLt_cons_iff]
        rw [h2]
        simp
      push_neg at h1' h2'
      have hxy : x = y := le_antisymm h2'.1 h1'.1
      have hxs : charsLt xs ys = false := by
        have := h1'.2 hxy
        cases hv : charsLt xs ys
        · rfl
        · exact absurd hv this
      have hys : charsLt ys xs = false := by
        have := h2'.2 hxy.symm
        cases hv : charsLt ys xs
        · rfl
        · exact absurd hv this
      rw [hxy, ihx ys hxs hys]

theorem strLt_trans {a b c : String} (h1 : strLt a b = true) (h2 : strLt b c = true) :
    strLt a c = true :=
  charsLt_trans a.data b.data c.data h1 h2

theorem strLt_connex {a b : String} (h1 : strLt a b = false) (h2 : strLt b a = false) :
    a = b := by
  cases a with
  | mk da =>
    cases b with
    | mk db => exact congrArg String.mk (charsLt_connex da db h1 h2)

theorem strLt_asymm {a b : String} (h1 : strLt a b = true) : strLt b a = false := by
  cases hv : strLt b a
  · rfl
  · have := strLt_trans h1 hv
    unfold strLt at this
    rw [charsLt_irrefl] at this
    exact Bool.noConfusion this

theorem strLe_flip {a b : String} (h : ¬ strLe a b = true) : strLe b a = true := by
  unfold strLe at *
  have hba : strLt b a = true := by
    cases hv : strLt b a
    · rw [hv] at h
      simp at h
    · rfl
  rw [strLt_asymm hba]
  rfl

theorem strLe_trans {a b c : String} (h1 : strLe a b = true) (h2 : strLe b c = true) :
    strLe a c = true := by
  unfold strLe at *
  cases hv : strLt c a
  · rfl
  · exfalso
    cases hcb : strLt c b
    · cases hba : strLt b c
      · have := strLt_connex hcb hba
        rw [this] at hv
        rw [hv] at h1
        simp at h1
      · have := strLt_trans hba hv
        rw [this] at h1
        simp at h1
    · rw [hcb] at h2
      simp at h2

theorem strLt_of_strLe_of_ne {a b : String} (h1 : strLe a b = true) (h2 : ¬ a = b) :
    strLt a b = true := by
  unfold strLe at h1
  cases hv : strLt a b
  · exfalso
    have hba : strLt b a = false := by
      cases hw : strLt b a
      · rfl
      · rw [hw] at h1
        simp at h1
    exact h2 (strLt_connex hv hba)
  · rfl

theorem insertByKey_perm (p : String × TypeData) (l : List (String × TypeData)) :
    (insertByKey p l).Perm (p :: l) := by
  induction l with
  | nil => simp [insertByKey]
  | cons q rest ih =>
    by_cases h : strLe p.1 q.1 = true
    · rw [insertByKey, if_pos h]
    · rw [insertByKey, if_neg h]
      exact (ih.cons q).trans (List.Perm.swap p q rest)

theorem insertByKey_sorted (p : String × TypeData) (l : List (String × TypeData))
    (h : l.Pairwise (fun a b => strLe a.1 b.1 = true)) :
    (insertByKey p l).Pairwise (fun a b => strLe a.1 b.1 = true) := by
  induction l with
  | nil => simp [insertByKey]
  | cons q rest ih =>
    rcases List.pairwise_cons.mp h with ⟨hq, hrest⟩
    by_cases hle : strLe p.1 q.1 = true
    · rw [insertByKey, if_pos hle]
      refine List.pairwise_cons.mpr ⟨?_, h⟩
      intro e he
      rcases List.mem_cons.mp he with h1 | h1
      · rw [h1]
        exact hle
      · exact strLe_trans hle (hq e h1)
    · rw [insertByKey, if_neg hle]
      refine List.pairwise_cons.mpr ⟨?_, ih hrest⟩
      intro e he
      rcases List.mem_cons.mp ((insertByKey_perm p rest).mem_iff.mp he) with h1 | h1
      · rw [h1]
        exact strLe_flip hle
      · exact hq e h1

theorem report_perm (t : StatsTable) : (report t).Perm t := by
  induction t with
  | nil => rfl
  | cons e rest ih =>
    have h1 : report (e :: rest) = insertByKey e (report rest) := rfl
    rw [h1]
    exact (insertByKey_perm e (report rest)).trans (ih.cons e)

theorem report_sorted (t : StatsTable) :
    (report t).Pairwise (fun a b => strLe a.1 b.1 = true) := by
  induction t with
  | nil => simp [report]
  | cons e rest ih => exact insertByKey_sorted e (report rest) ih

theorem report_strict_sorted (t : StatsTable) (hnd : (keysOf t).Nodup) :
    (report t).Pairwise (fun a b => strLt a.1 b.1 = true) := by
  have hnd2 : (keysOf (report t)).Nodup := by
    unfold keysOf
    exact ((report_perm t).map Prod.fst).nodup_iff.mpr hnd
  have hne : (report t).Pairwise (fun a b => ¬ a.1 = b.1) := by
    unfold keysOf at hnd2
    rw [List.Nodup, List.pairwise_map] at hnd2
    exact hnd2
  have hcomb := (report_sorted t).and hne
  exact hcomb.imp (fun hab => strLt_of_strLe_of_ne hab.1 hab.2)

/-! ## Permutation invariance of the aggregates -/

theorem countOf_perm {lines lines2 : List String} (hp : lines.Perm lines2) (ty : String) :
    countOf lines ty = countOf lines2 ty :=
  (hp.filter _).length_eq

theorem bytesOf_perm {lines lines2 : List String} (hp : lines.Perm lines2) (ty : String) :
    bytesOf lines ty = bytesOf lines2 ty :=
  ((hp.filter _).map utf8Len).sum_eq

theorem tables_perm_of_findEntry_eq {t t2 : StatsTable}
    (hn : (keysOf t).Nodup) (hn2 : (keysOf t2).Nodup)
    (hfe : ∀ ty, findEntry t ty = findEntry t2 ty) : t.Perm t2 := by
  have hnd : t.Nodup := List.Nodup.of_map _ hn
  have hnd2 : t2.Nodup := List.Nodup.of_map _ hn2
  rw [List.perm_ext_iff_of_nodup hnd hnd2]
  intro e
  cases e with
  | mk k d => rw [mem_iff_findEntry t k d hn, mem_iff_findEntry t2 k d hn2, hfe k]

/-! ## Corollaries at the top entry point -/

theorem process_file_char {lines : List String} {t : StatsTable}
    (h : process_file lines = Except.ok t) :
    WFTable t ∧ (keysOf t).Nodup ∧
    sumNum t = lines.length ∧
    sumBytes t = (lines.map utf8Len).sum ∧
    (∀ l ∈ lines, (decodeLine l).isSome) ∧
    (∀ ty, findEntry t ty =
      if countOf lines ty = 0 then none
      else some ⟨countOf lines ty, bytesOf lines ty⟩) := by
  have hwfe : WFTable ([] : StatsTable) := by
    intro e he
    simp at he
  have hnde : (keysOf ([] : StatsTable)).Nodup := by
    simp [keysOf]
  obtain ⟨hwf, hnd, hsn, hsb, hdec, hfind⟩ := run_ok_char lines [] 1 t hwfe hnde h
  refine ⟨hwf, hnd, by simpa [sumNum] using hsn, by simpa [sumBytes] using hsb, hdec, ?_⟩
  intro ty
  have hf := hfind ty
  simpa [findEntry, getEntry] using hf

/-- Claim C1: for every input file on which process_file completes
successfully (every line parses and no overflow occurs), the sum of the
num (count) fields over the returned table's entries equals the number
of lines in the file. -/
theorem claim1_sum_num_eq_length (lines : List String) (t : StatsTable)
    (h : process_file lines = Except.ok t) : sumNum t = lines.length :=
  (process_file_char h).2.2.1

/-- Witness for C1 at the concrete two-line file [jsonA, jsonB]. -/
theorem claim1_witness :
    sumNum [("a", (⟨1, 12⟩ : TypeData)), ("b", ⟨1, 12⟩)] = [jsonA, jsonB].length :=
  claim1_sum_num_eq_length [jsonA, jsonB] [("a", ⟨1, 12⟩), ("b", ⟨1, 12⟩)] rfl

/-- Claim C2: on every successful run the sum of the bytes (totalBytes)
fields over the table's entries equals the total terminator-excluded
byte length of the lines, and each successfully processed record adds
exactly its own line's byte length to its type's bytes field. -/
theorem claim2_sum_bytes (lines : List String) (t : StatsTable)
    (stats s2 : StatsTable) (line ty : String)
    (h : process_file lines = Except.ok t)
    (hd : decodeLine line = some ty)
    (hok : process_line stats line = (s2, none)) :
    sumBytes t = (lines.map utf8Len).sum ∧
    (getEntry s2 ty).bytes = (getEntry stats ty).bytes + utf8Len line := by
  refine ⟨(process_file_char h).2.2.2.1, ?_⟩
  rw [process_line, hd] at hok
  obtain ⟨hlt, hst⟩ := record_ok hok
  subst hst
  unfold getEntry
  rw [findEntry_setEntry_self]
  rfl

/-- Witness for C2 at the one-line file [jsonA] and the step on the empty
table. -/
theorem claim2_witness :
    sumBytes [("a", (⟨1, 12⟩ : TypeData))] = ([jsonA].map utf8Len).sum ∧
    (getEntry [("a", (⟨1, 12⟩ : TypeData))] "a").bytes =
      (getEntry [] "a").bytes + utf8Len jsonA :=
  claim2_sum_bytes [jsonA] [("a", ⟨1, 12⟩)] [] [("a", ⟨1, 12⟩)] jsonA "a" rfl rfl rfl

/-- Claim C3: on success the report has exactly the table's entries (one
line per distinct label) and is strictly ascending in the byte/codepoint
lexicographic order on labels. -/
theorem claim3_report_sorted (lines : List String) (t : StatsTable)
    (h : process_file lines = Except.ok t) :
    (report t).Perm t ∧ (report t).Pairwise (fun a b => strLt a.1 b.1 = true) := by
  have hnd := (process_file_char h).2.1
  exact ⟨report_perm t, report_strict_sorted t hnd⟩

/-- Witness for C3 at the two-type file [jsonB, jsonA]. -/
theorem claim3_witness :
    (report [("b", (⟨1, 12⟩ : TypeData)), ("a", ⟨1, 12⟩)]).Perm
      [("b", (⟨1, 12⟩ : TypeData)), ("a", ⟨1, 12⟩)] ∧
    (report [("b", (⟨1, 12⟩ : TypeData)), ("a", ⟨1, 12⟩)]).Pairwise
      (fun a b => strLt a.1 b.1 = true) :=
  claim3_report_sorted [jsonB, jsonA] [("b", ⟨1, 12⟩), ("a", ⟨1, 12⟩)] rfl

/-- Counterexample to C4 as stated: on Scenario A the run succeeds, but
the byte totals are 24 for a and 12 for b (each line is the 12-byte text
of the JSON object, the terminator being excluded), not the 26 and 13
the scenario claims. -/
theorem claim4_counterexample :
    process_file [jsonA, jsonB, jsonA] =
      Except.ok [("a", ⟨2, 24⟩), ("b", ⟨1, 12⟩)] ∧
    findEntry [("a", (⟨2, 24⟩ : TypeData)), ("b", ⟨1, 12⟩)] "a" = some ⟨2, 24⟩ ∧
    findEntry [("a", (⟨2, 24⟩ : TypeData)), ("b", ⟨1, 12⟩)] "b" = some ⟨1, 12⟩ ∧
    (24 : Nat) ≠ 26 ∧ (12 : Nat) ≠ 13 :=
  ⟨rfl, rfl, rfl, by decide, by decide⟩

/-- Claim C4 amended: on the Scenario A input the run succeeds and
reports entry a with count 2 and total bytes 24 and entry b with count 1
and total bytes 12 (the byte counts equal each line's literal text
length, 12 bytes per line), with a ordered before b. -/
theorem claim4_amended :
    process_file [jsonA, jsonB, jsonA] =
      Except.ok [("a", ⟨2, 24⟩), ("b", ⟨1, 12⟩)] ∧
    report [("a", (⟨2, 24⟩ : TypeData)), ("b", ⟨1, 12⟩)] =
      [("a", (⟨2, 24⟩ : TypeData)), ("b", ⟨1, 12⟩)] :=
  ⟨rfl, rfl⟩

/-- Claim C5: the successful accumulation step record(table, type,
byteLength) behaves as specified: a fresh \x7bcount 0, totalBytes 0\x7d
entry is inserted when the label is absent, the entry's count is then
incremented by exactly 1 and its totalBytes increased by exactly the
given byte length, and the entry of every other label is unchanged.  The
hypothesis hnum states that the incremented count is still a u64 value,
which formalizes the spec's stated assumption that count increments
never overflow within one run. -/
theorem claim5_record_step (stats : StatsTable) (ty : String) (len : Nat) (t2 : StatsTable)
    (hnum : (getEntry stats ty).num + 1 < U64LIMIT)
    (hok : record stats ty len = (t2, none)) :
    findEntry t2 ty = some ⟨(getEntry stats ty).num + 1, (getEntry stats ty).bytes + len⟩ ∧
    (findEntry stats ty = none → findEntry t2 ty = some ⟨1, len⟩) ∧
    (∀ ty2, ¬ ty2 = ty → findEntry t2 ty2 = findEntry stats ty2) := by
  obtain ⟨hlt, hst⟩ := record_ok hok
  rw [Nat.mod_eq_of_lt hnum] at hst
  subst hst
  refine ⟨findEntry_setEntry_self stats ty _, ?_, ?_⟩
  · intro hnone
    rw [findEntry_setEntry_self]
    unfold getEntry
    rw [hnone]
    simp
  · intro ty2 hne
    exact findEntry_setEntry_ne stats ty ty2 _ hne

/-- Witness for C5: recording type x with byte length 5 on the empty
table. -/
theorem claim5_witness :
    findEntry [("x", (⟨1, 5⟩ : TypeData))] "x" =
      some ⟨(getEntry [] "x").num + 1, (getEntry [] "x").bytes + 5⟩ ∧
    (findEntry [] "x" = none → findEntry [("x", (⟨1, 5⟩ : TypeData))] "x" = some ⟨1, 5⟩) ∧
    (∀ ty2, ¬ ty2 = "x" → findEntry [("x", (⟨1, 5⟩ : TypeData))] ty2 = findEntry [] ty2) :=
  claim5_record_step [] "x" 5 [("x", ⟨1, 5⟩)] (by decide) rfl

/-- Claim C6: when adding a record's byte length to its type's totalBytes
accumulator would exceed 2^64 - 1, the accumulation step returns the
overflow error instead of wrapping modulo 2^64 (the stored byte total is
left unchanged rather than wrapped), and the processing loop surfaces
that error annotated with the failing line's number (process_file starts
the numbering at 1, making it 1-based). -/
theorem claim6_overflow_error (stats : StatsTable) (ty line : String)
    (rest : List String) (n : Nat)
    (hd : decodeLine line = some ty)
    (hov : U64LIMIT ≤ (getEntry stats ty).bytes + utf8Len line) :
    (process_line stats line).2 = some LineError.overflow ∧
    (getEntry (process_line stats line).1 ty).bytes = (getEntry stats ty).bytes ∧
    process_lines stats n (line :: rest) = Except.error ⟨n, LineError.overflow⟩ := by
  have hrec := @record_overflow stats ty (utf8Len line) hov
  have h1 : process_line stats line =
      (setEntry stats ty ⟨((getEntry stats ty).num + 1) % U64LIMIT, (getEntry stats ty).bytes⟩,
       some LineError.overflow) := by
    simp only [process_line, hd, hrec]
  refine ⟨by rw [h1], ?_, ?_⟩
  · rw [h1]
    unfold getEntry
    rw [findEntry_setEntry_self]
    rfl
  · simp only [process_lines, h1]

/-- Witness for C6: a table whose type b already holds u64::MAX bytes,
processed at line number 5. -/
theorem claim6_witness :
    (process_line [("b", (⟨3, U64LIMIT - 1⟩ : TypeData))] jsonB).2 =
      some LineError.overflow ∧
    (getEntry (process_line [("b", (⟨3, U64LIMIT - 1⟩ : TypeData))] jsonB).1 "b").bytes =
      (getEntry [("b", (⟨3, U64LIMIT - 1⟩ : TypeData))] "b").bytes ∧
    process_lines [("b", (⟨3, U64LIMIT - 1⟩ : TypeData))] 5 [jsonB] =
      Except.error ⟨5, LineError.overflow⟩ :=
  claim6_overflow_error [("b", ⟨3, U64LIMIT - 1⟩)] "b" jsonB [] 5 rfl (by decide)

/-- Claim C8: process_file yields either a complete table with every line
processed successfully, or the error of the first failing line annotated
with its 1-based number; no table accompanies an error, and the lines
after the first failure never influence the outcome. -/
theorem claim8_all_or_first_error (lines : List String) :
    (∃ t, process_file lines = Except.ok t ∧ ∀ l ∈ lines, (decodeLine l).isSome) ∨
    (∃ front l back e s, lines = front ++ l :: back ∧
      process_lines [] 1 front = Except.ok s ∧
      (process_line s l).2 = some e ∧
      ∀ back2, process_file (front ++ l :: back2) =
        Except.error ⟨front.length + 1, e⟩) := by
  rcases run_first_error lines [] 1 with h | ⟨front, l, back, e, s, heq, hfront, herr, hall⟩
  · exact Or.inl h
  · right
    refine ⟨front, l, back, e, s, heq, hfront, herr, ?_⟩
    intro back2
    have h2 := hall back2
    unfold process_file
    rw [h2]
    have h3 : 1 + front.length = front.length + 1 := by omega
    rw [h3]

/-- Claim C9: permuting the lines of a file on which process_file
succeeds leaves the run successful, and the resulting table holds the
same set of (label, count, totalBytes) entries (a permutation of the
original entries, whose labels are distinct). -/
theorem claim9_perm_invariance (lines lines2 : List String) (t : StatsTable)
    (hperm : lines.Perm lines2) (h : process_file lines = Except.ok t) :
    isOkRun (process_file lines2) = true ∧ t.Perm (okTable (process_file lines2)) := by
  obtain ⟨hwf, hnd, _, _, hdec, hfind⟩ := process_file_char h
  have hdec2 : ∀ l ∈ lines2, (decodeLine l).isSome :=
    fun l hl => hdec l (hperm.mem_iff.mpr hl)
  have hbnd2 : ∀ ty, (getEntry ([] : StatsTable) ty).bytes + bytesOf lines2 ty < U64LIMIT := by
    intro ty
    have hb : bytesOf lines2 ty = bytesOf lines ty := (bytesOf_perm hperm ty).symm
    rw [hb]
    by_cases hz : countOf lines ty = 0
    · rw [bytesOf_eq_zero hz]
      norm_num [getEntry, findEntry, U64LIMIT]
    · have hf := hfind ty
      rw [if_neg hz] at hf
      have hmem := findEntry_some_mem t ty _ hf
      have hwfe := hwf _ hmem
      dsimp only at hwfe
      have hge : getEntry ([] : StatsTable) ty = ⟨0, 0⟩ := rfl
      rw [hge]
      dsimp only
      omega
  obtain ⟨t2, ht2⟩ := run_complete lines2 [] 1 hdec2 hbnd2
  have h2 : process_file lines2 = Except.ok t2 := ht2
  obtain ⟨hwf2, hnd2, _, _, _, hfind2⟩ := process_file_char h2
  refine ⟨by rw [h2]; rfl, ?_⟩
  have hfe : ∀ ty, findEntry t ty = findEntry t2 ty := by
    intro ty
    rw [hfind ty, hfind2 ty, countOf_perm hperm ty, bytesOf_perm hperm ty]
  have hperm2 := tables_perm_of_findEntry_eq hnd hnd2 hfe
  rw [h2]
  exact hperm2

/-- Witness for C9: swapping the two lines of [jsonA, jsonB]. -/
theorem claim9_witness :
    isOkRun (process_file [jsonB, jsonA]) = true ∧
    ([("a", (⟨1, 12⟩ : TypeData)), ("b", ⟨1, 12⟩)] : StatsTable).Perm
      (okTable (process_file [jsonB, jsonA])) :=
  claim9_perm_invariance [jsonA, jsonB] [jsonB, jsonA] [("a", ⟨1, 12⟩), ("b", ⟨1, 12⟩)]
    (List.Perm.swap jsonB jsonA []) rfl

/-- Claim C10: when process_line fails with the overflow error for a
record of type ty, the table has already been mutated before the error
is returned: the entry for ty was inserted (as \x7b0, 0\x7d) if absent
and its count field incremented by 1 (exactly, under the u64
representability hypothesis hnum) while its byte total is unchanged, so
the accumulation step is not atomic on error. -/
theorem claim10_overflow_mutates (stats : StatsTable) (line ty : String)
    (hd : decodeLine line = some ty)
    (hnum : (getEntry stats ty).num + 1 < U64LIMIT)
    (hov : U64LIMIT ≤ (getEntry stats ty).bytes + utf8Len line) :
    (process_line stats line).2 = some LineError.overflow ∧
    findEntry (process_line stats line).1 ty =
      some ⟨(getEntry stats ty).num + 1, (getEntry stats ty).bytes⟩ ∧
    ¬ (process_line stats line).1 = stats := by
  have hrec := @record_overflow stats ty (utf8Len line) hov
  have hmod : ((getEntry stats ty).num + 1) % U64LIMIT = (getEntry stats ty).num + 1 :=
    Nat.mod_eq_of_lt hnum
  have h1 : process_line stats line =
      (setEntry stats ty ⟨(getEntry stats ty).num + 1, (getEntry stats ty).bytes⟩,
       some LineError.overflow) := by
    simp only [process_line, hd, hrec, hmod]
  have h2 : findEntry (process_line stats line).1 ty =
      some ⟨(getEntry stats ty).num + 1, (getEntry stats ty).bytes⟩ := by
    rw [h1]
    exact findEntry_setEntry_self stats ty _
  refine ⟨by rw [h1], h2, ?_⟩
  intro heq
  rw [heq] at h2
  have h4 : (getEntry stats ty).num = (getEntry stats ty).num + 1 :=
    congrArg (fun o => (Option.getD o ⟨0, 0⟩).num) h2
  omega

/-- Witness for C10: a table whose type c is five bytes short of
u64::MAX, fed the 12-byte line jsonC. -/
theorem claim10_witness :
    (process_line [("c", (⟨2, U64LIMIT - 5⟩ : TypeData))] jsonC).2 =
      some LineError.overflow ∧
    findEntry (process_line [("c", (⟨2, U64LIMIT - 5⟩ : TypeData))] jsonC).1 "c" =
      some ⟨(getEntry [("c", (⟨2, U64LIMIT - 5⟩ : TypeData))] "c").num + 1,
            (getEntry [("c", (⟨2, U64LIMIT - 5⟩ : TypeData))] "c").bytes⟩ ∧
    ¬ (process_line [("c", (⟨2, U64LIMIT - 5⟩ : TypeData))] jsonC).1 =
      [("c", (⟨2, U64LIMIT - 5⟩ : TypeData))] :=
  claim10_overflow_mutates [("c", ⟨2, U64LIMIT - 5⟩)] jsonC "c" rfl (by decide) (by decide)
